import Mathlib

/-!
# Verification of the developer-agents repository

A shallow embedding, in Lean 4, of the core operations of the
`developer-agents` repository (sandbox lifecycle, patch protocol,
repository mutation, validation runner, commit-and-push workflow step),
together with theorems settling the frozen claims about its
natural-language specification.

Filesystem state is modelled explicitly: paths are lists of components
(for the `pathlib`-based sandbox manager) or plain strings (for the
`os.path`-based coder-agent tools).  Subprocess and I/O effects are
reified as oracle parameters, so every definition is executable.
-/

/-! ## Part 0: executable string helpers

Lean's own `String.splitOn`, `String.replace`, `String.startsWith` and
`String.intercalate` run on byte positions or by well-founded recursion,
which the kernel cannot unfold when closed witnesses are checked with
`decide`/`rfl`.  The helpers below are structurally recursive char-list
implementations of the Python string primitives the sources use
(`str.split(c)`, `x in s`, `str.replace`, `sep.join`, `str.startswith`).
-/

/-- Python `s.split(c)` for a one-character separator, over char lists:
always returns at least one (possibly empty) piece. -/
def splitOnCharList (c : Char) : List Char → List (List Char)
  | [] => [[]]
  | x :: xs =>
    let r := splitOnCharList c xs
    if x = c then [] :: r
    else
      match r with
      | [] => [[x]]
      | h :: t => (x :: h) :: t

/-- Python `s.split(c)` for a one-character separator. -/
def splitOnChar (c : Char) (s : String) : List String :=
  (splitOnCharList c s.data).map String.mk

/-- Python `sep.join(pieces)`. -/
def joinWith (sep : String) : List String → String
  | [] => ""
  | [x] => x
  | x :: y :: xs => x ++ sep ++ joinWith sep (y :: xs)

/-- Python `pat in s` over char lists. -/
def containsSub (pat : List Char) : List Char → Bool
  | [] => pat.isEmpty
  | x :: xs => pat.isPrefixOf (x :: xs) || containsSub pat xs

/-- Python `s.replace(pat, repl)` (all occurrences, left to right) over
char lists; the fuel argument (the list length suffices) makes the
recursion structural. -/
def replaceSubFuel (pat repl : List Char) : Nat → List Char → List Char
  | 0, l => l
  | _ + 1, [] => []
  | fuel + 1, x :: xs =>
    if pat.isPrefixOf (x :: xs) && !pat.isEmpty then
      repl ++ replaceSubFuel pat repl fuel ((x :: xs).drop pat.length)
    else x :: replaceSubFuel pat repl fuel xs

/-- Python `s.replace(pat, repl)`. -/
def replaceSub (pat repl s : String) : String :=
  String.mk (replaceSubFuel pat.data repl.data s.data.length s.data)

/-- Python `s.startswith("/")`: the string model of an absolute POSIX
path. -/
def startsWithSlash (s : String) : Bool :=
  match s.data with
  | [] => false
  | c :: _ => c = '/'

/-! ## Part 1: the sandbox manager filesystem model

Embeds `git-sandbox-agent/tools/sandbox_manager.py` and
`git-clone-agent/tools/sandbox_manager.py`.  A filesystem is a finite
collection of directory paths and of file paths with contents; a path is
the list of its components, so `Path.is_relative_to` is the list
is-ancestor test and `shutil.rmtree` removes every path below the target.
-/

abbrev FsPath := List String

/-- `isAncestorOf r p`: `r` is `p` or an ancestor of `p` — exactly Python's
`p.is_relative_to(r)` for already-resolved paths (reflexive: a path is
relative to itself). -/
def isAncestorOf : FsPath → FsPath → Bool
  | [], _ => true
  | _ :: _, [] => false
  | r :: rs, q :: qs => r == q && isAncestorOf rs qs

structure FS where
  dirs : List FsPath
  files : List (FsPath × String)
deriving DecidableEq, Repr

/-- `pathlib.Path.exists()`: the path is a directory or a file of the
filesystem. -/
def pathExists (fs : FS) (p : FsPath) : Bool :=
  fs.dirs.any (fun d => d == p) || fs.files.any (fun f => f.1 == p)

/-- `shutil.rmtree(p, ignore_errors=True)`: removes the whole subtree at
`p` (every directory and file having `p` as an ancestor, `p` included);
individual removal errors are ignored, so in the model removal always
completes. -/
def rmtree (fs : FS) (p : FsPath) : FS :=
  { dirs := fs.dirs.filter (fun d => !(isAncestorOf p d)),
    files := fs.files.filter (fun f => !(isAncestorOf p f.1)) }

/-- `os.makedirs(p, exist_ok=True)`: creates `p` and every missing
ancestor directory.  Duplicate entries in `dirs` are harmless since
existence is an `any` test. -/
def makedirsP (fs : FS) (p : FsPath) : FS :=
  { fs with dirs := fs.dirs ++ (List.range p.length).map (fun i => p.take (i + 1)) }

/-- Which of the three branches of `cleanup_sandbox` ran: the recursive
removal, the "outside of sandbox root" warning, or the "non-existent
sandbox" warning. -/
inductive CleanupAction where
  | removed
  | warnedOutside
  | warnedMissing
deriving DecidableEq, Repr

/-- `cleanup_sandbox(path)` of `git-sandbox-agent/tools/sandbox_manager.py`
(lines 50-63), identical to `cleanup_clone_directory` of
`git-clone-agent/tools/sandbox_manager.py` (lines 79-92):

    if path.exists() and path.is_relative_to(ROOT_SANDBOX_DIR): rmtree
    elif not path.is_relative_to(ROOT_SANDBOX_DIR): warning (outside root)
    else: warning (non-existent)

The module-level constant `ROOT_SANDBOX_DIR` is the `root` parameter. -/
def cleanup_sandbox (root : FsPath) (fs : FS) (p : FsPath) : FS × CleanupAction :=
  if pathExists fs p && isAncestorOf root p then (rmtree fs p, .removed)
  else if !(isAncestorOf root p) then (fs, .warnedOutside)
  else (fs, .warnedMissing)

/-- `initialize_sandbox_root()` (lines 12-30 of both sandbox managers):
if the root exists, every direct child is removed (`rmtree` for
directories, `unlink` for files), i.e. every proper descendant of the
root disappears; otherwise the root is created with `os.makedirs`. -/
def initialize_sandbox_root (root : FsPath) (fs : FS) : FS :=
  if pathExists fs root then
    { dirs := fs.dirs.filter (fun d => !(isAncestorOf root d && !(d == root))),
      files := fs.files.filter (fun f => !(isAncestorOf root f.1 && !(f.1 == root))) }
  else
    makedirsP fs root

/-- `create_sandbox()` (`git-sandbox-agent/tools/sandbox_manager.py`
lines 32-48): re-initializes the root (purging its children), then
creates `ROOT / ("sandbox-" + uuid4()[:8])`.  The 8-character uuid slice
is the `uuid8` parameter. -/
def create_sandbox (root : FsPath) (uuid8 : String) (fs : FS) : FS × FsPath :=
  let fs1 := initialize_sandbox_root root fs
  let p := root ++ [("sandbox-" ++ uuid8)]
  (makedirsP fs1 p, p)

/-- The directory-name derivation of `create_clone_directory`
(`git-clone-agent/tools/sandbox_manager.py` lines 46-58): Python's
`if repo_name:` is false for `None` and for the empty string; otherwise
the segment after the last slash is taken and every occurrence of
`.git` is removed. -/
def derive_clone_dir_name (repo_name : Option String) (uuid8 : String) : String :=
  match repo_name with
  | none => "repo-" ++ uuid8
  | some r =>
    if r = "" then "repo-" ++ uuid8
    else
      let r1 := if r.data.contains ('/') then (splitOnChar ('/') r).getLastD r else r
      let r2 := if containsSub ((".git").data) r1.data then replaceSub (".git") ("") r1 else r1
      "repo-" ++ r2

/-- `create_clone_directory(repo_name)` (`git-clone-agent/tools/sandbox_manager.py`
lines 32-77): re-initializes the root (purging its children), derives the
directory name, removes a leftover directory of the same name if one
still exists, and creates a fresh directory. -/
def create_clone_directory (root : FsPath) (repo_name : Option String) (uuid8 : String)
    (fs : FS) : FS × FsPath :=
  let fs1 := initialize_sandbox_root root fs
  let p := root ++ [derive_clone_dir_name repo_name uuid8]
  let fs2 := if pathExists fs1 p then rmtree fs1 p else fs1
  (makedirsP fs2 p, p)

/-! ### Basic lemmas about the path model -/

theorem isAncestorOf_refl (p : FsPath) : isAncestorOf p p = true := by
  induction p with
  | nil => rfl
  | cons a as ih => simp [isAncestorOf, ih]

theorem isAncestorOf_trans {a b c : FsPath} (h1 : isAncestorOf a b = true)
    (h2 : isAncestorOf b c = true) : isAncestorOf a c = true := by
  induction a generalizing b c with
  | nil => rfl
  | cons x xs ih =>
    cases b with
    | nil => simp [isAncestorOf] at h1
    | cons y ys =>
      cases c with
      | nil => simp [isAncestorOf] at h2
      | cons z zs =>
        simp only [isAncestorOf, Bool.and_eq_true, beq_iff_eq] at h1 h2 ⊢
        exact ⟨h1.1.trans h2.1, ih h1.2 h2.2⟩

theorem isAncestorOf_length {a b : FsPath} (h : isAncestorOf a b = true) :
    a.length ≤ b.length := by
  induction a generalizing b with
  | nil => simp
  | cons x xs ih =>
    cases b with
    | nil => simp [isAncestorOf] at h
    | cons y ys =>
      simp only [isAncestorOf, Bool.and_eq_true] at h
      simpa [List.length_cons] using Nat.succ_le_succ (ih h.2)

theorem pathExists_rmtree (fs : FS) (p q : FsPath) :
    pathExists (rmtree fs p) q = (pathExists fs q && !(isAncestorOf p q)) := by
  simp only [pathExists, rmtree]
  cases hq : isAncestorOf p q with
  | false =>
    simp only [Bool.not_false, Bool.and_true]
    congr 1
    · apply Bool.eq_iff_iff.mpr
      simp only [List.any_eq_true, List.mem_filter, beq_iff_eq]
      constructor
      · rintro ⟨d, ⟨hd, _⟩, rfl⟩; exact ⟨d, hd, rfl⟩
      · rintro ⟨d, hd, rfl⟩; exact ⟨d, ⟨hd, by simp [hq]⟩, rfl⟩
    · apply Bool.eq_iff_iff.mpr
      simp only [List.any_eq_true, List.mem_filter, beq_iff_eq]
      constructor
      · rintro ⟨f, ⟨hf, _⟩, h⟩; exact ⟨f, hf, h⟩
      · rintro ⟨f, hf, h⟩; exact ⟨f, ⟨hf, by simp [h, hq]⟩, h⟩
  | true =>
    simp only [Bool.not_true, Bool.and_false]
    apply Bool.or_eq_false_iff.mpr
    constructor
    · apply Bool.eq_false_iff.mpr
      intro hc
      simp only [List.any_eq_true, List.mem_filter, beq_iff_eq] at hc
      obtain ⟨d, ⟨_, hdp⟩, rfl⟩ := hc
      simp [hq] at hdp
    · apply Bool.eq_false_iff.mpr
      intro hc
      simp only [List.any_eq_true, List.mem_filter, beq_iff_eq] at hc
      obtain ⟨f, ⟨_, hfp⟩, h⟩ := hc
      rw [h] at hfp
      simp [hq] at hfp

/-! ### Claim C1: containment of cleanup -/

/-- C1.  Containment of cleanup: `cleanup_sandbox(p)` removes the subtree
at `p` only when `p` is a descendant of the sandbox containment root (in
the sense of `Path.is_relative_to`, which the source uses); for any `p`
that is not a descendant of the root the filesystem is returned unchanged
and the "outside of sandbox root" warning is recorded instead of the
deletion, and any path whose existence the call removes lies below `p`
and hence below the root. -/
theorem cleanup_sandbox_containment (root : FsPath) (fs : FS) (p : FsPath) :
    (isAncestorOf root p = false →
      cleanup_sandbox root fs p = (fs, CleanupAction.warnedOutside))
    ∧ (∀ q : FsPath, pathExists fs q = true →
        pathExists (cleanup_sandbox root fs p).1 q = false →
        isAncestorOf root p = true ∧ isAncestorOf p q = true ∧
          isAncestorOf root q = true) := by
  constructor
  · intro h
    simp [cleanup_sandbox, h]
  · intro q hq hq'
    by_cases hb : (pathExists fs p && isAncestorOf root p) = true
    · have hroot : isAncestorOf root p = true := (Bool.and_eq_true _ _ |>.mp hb).2
      have : (cleanup_sandbox root fs p).1 = rmtree fs p := by
        simp [cleanup_sandbox, hb]
      rw [this, pathExists_rmtree, hq, Bool.true_and, Bool.not_eq_false'] at hq'
      exact ⟨hroot, hq', isAncestorOf_trans hroot hq'⟩
    · exfalso
      have : (cleanup_sandbox root fs p).1 = fs := by
        unfold cleanup_sandbox
        rw [if_neg (by simp [hb])]
        by_cases h2 : (!(isAncestorOf root p)) = true <;> simp [h2]
      rw [this, hq] at hq'
      exact absurd hq' (by simp)

/-- Witness for C1 at a concrete filesystem: cleaning up `["x"]`, which is
outside the root `["r"]`, leaves the filesystem unchanged and records the
warning. -/
theorem cleanup_sandbox_containment_witness :
    cleanup_sandbox (["r"]) (FS.mk [["r"], ["r", "s"]] [(["r", "s", "f"], "data")]) (["x"])
      = (FS.mk [["r"], ["r", "s"]] [(["r", "s", "f"], "data")], CleanupAction.warnedOutside) :=
  (cleanup_sandbox_containment (["r"])
    (FS.mk [["r"], ["r", "s"]] [(["r", "s", "f"], "data")]) (["x"])).1 (by decide)

/-! ### Claim C2: idempotent cleanup -/

/-- C2.  Idempotent cleanup: a second `cleanup_sandbox` call on the same
path deletes nothing (the filesystem after the second call is the one
after the first), and a call on a non-existent path is a logged no-op —
the filesystem is unchanged and one of the two warning branches runs.
The function is total in the model: `rmtree` runs with
`ignore_errors=True`, so no call raises. -/
theorem cleanup_sandbox_idempotent (root : FsPath) (fs : FS) (p : FsPath) :
    (pathExists fs p = false →
      cleanup_sandbox root fs p =
        (fs, if isAncestorOf root p then CleanupAction.warnedMissing
             else CleanupAction.warnedOutside))
    ∧ (cleanup_sandbox root ((cleanup_sandbox root fs p).1) p).1
        = (cleanup_sandbox root fs p).1 := by
  constructor
  · intro h
    unfold cleanup_sandbox
    rw [if_neg (by simp [h])]
    by_cases h2 : isAncestorOf root p = true <;> simp [h2]
  · by_cases hb : (pathExists fs p && isAncestorOf root p) = true
    · have h1 : (cleanup_sandbox root fs p).1 = rmtree fs p := by
        simp [cleanup_sandbox, hb]
      have h2 : pathExists (rmtree fs p) p = false := by
        rw [pathExists_rmtree, isAncestorOf_refl]
        simp
      rw [h1]
      unfold cleanup_sandbox
      rw [if_neg (by simp [h2])]
      by_cases h3 : (!(isAncestorOf root p)) = true <;> simp [h3]
    · have h1 : (cleanup_sandbox root fs p).1 = fs := by
        unfold cleanup_sandbox
        rw [if_neg (by simp [hb])]
        by_cases h2 : (!(isAncestorOf root p)) = true <;> simp [h2]
      rw [h1]
      unfold cleanup_sandbox
      rw [if_neg (by simp [hb])]
      by_cases h2 : (!(isAncestorOf root p)) = true <;> simp [h2]

/-- Witness for C2: cleaning up the non-existent sandbox `["r", "gone"]`
(inside the root `["r"]`) is a no-op with the "non-existent" warning, and
repeating a successful cleanup changes nothing. -/
theorem cleanup_sandbox_idempotent_witness :
    cleanup_sandbox (["r"]) (FS.mk [["r"]] []) (["r", "gone"])
      = (FS.mk [["r"]] [], CleanupAction.warnedMissing) :=
  (cleanup_sandbox_idempotent (["r"]) (FS.mk [["r"]] []) (["r", "gone"])).1 (by decide)

/-! ### Claim C10: sandbox creation purges all siblings -/

theorem isAncestorOf_append (a t : FsPath) : isAncestorOf a (a ++ t) = true := by
  induction a with
  | nil => rfl
  | cons x xs ih => simp [isAncestorOf, ih]

theorem any_map_eq {α β : Type} (l : List α) (f : α → β) (p : β → Bool) :
    (l.map f).any p = l.any (fun a => p (f a)) := by
  induction l with
  | nil => rfl
  | cons a as ih => simp [ih]

theorem pathExists_makedirsP (fs : FS) (p q : FsPath) :
    pathExists (makedirsP fs p) q
      = (pathExists fs q || (List.range p.length).any (fun i => p.take (i + 1) == q)) := by
  simp only [pathExists, makedirsP, List.any_append, any_map_eq]
  cases h1 : fs.dirs.any (fun d => d == q) <;>
    cases h2 : fs.files.any (fun f => f.1 == q) <;>
      simp

theorem take_any_eq_false_of_proper {root q : FsPath} (hanc : isAncestorOf root q = true)
    (hne : q ≠ root) :
    (List.range root.length).any (fun i => root.take (i + 1) == q) = false := by
  apply Bool.eq_false_iff.mpr
  intro hc
  simp only [List.any_eq_true, List.mem_range, beq_iff_eq] at hc
  obtain ⟨i, hi, hq⟩ := hc
  have hlen : q.length = i + 1 := by
    rw [← hq, List.length_take]
    omega
  have := isAncestorOf_length hanc
  have hi1 : i + 1 = root.length := by omega
  apply hne
  rw [← hq, hi1, List.take_length]

theorem take_single_any_iff {root q : FsPath} {nm : String}
    (hanc : isAncestorOf root q = true) (hne : q ≠ root) :
    ((List.range (root ++ [nm]).length).any (fun i => (root ++ [nm]).take (i + 1) == q) = true)
      ↔ q = root ++ [nm] := by
  constructor
  · intro hc
    simp only [List.any_eq_true, List.mem_range, beq_iff_eq] at hc
    obtain ⟨i, hi, hq⟩ := hc
    simp only [List.length_append, List.length_cons, List.length_nil] at hi
    rcases Nat.lt_or_ge i root.length with hlt | hge
    · exfalso
      rw [List.take_append_of_le_length (by omega)] at hq
      have hlen : q.length = i + 1 := by
        rw [← hq, List.length_take]
        omega
      have := isAncestorOf_length hanc
      have hi1 : i + 1 = root.length := by omega
      apply hne
      rw [← hq, hi1, List.take_length]
    · have hieq : i = root.length := by omega
      rw [← hq, hieq]
      rw [List.take_of_length_le (by simp)]
  · intro hq
    simp only [List.any_eq_true, List.mem_range, beq_iff_eq]
    refine ⟨root.length, by simp, ?_⟩
    rw [List.take_of_length_le (by simp), hq]

theorem pathExists_initialize_of_proper (root : FsPath) (fs : FS) (q : FsPath)
    (hanc : isAncestorOf root q = true) (hne : q ≠ root)
    (hwf : pathExists fs root = false → pathExists fs q = false) :
    pathExists (initialize_sandbox_root root fs) q = false := by
  unfold initialize_sandbox_root
  by_cases hr : pathExists fs root = true
  · rw [if_pos hr]
    simp only [pathExists]
    apply Bool.or_eq_false_iff.mpr
    constructor
    · apply Bool.eq_false_iff.mpr
      intro hc
      simp only [List.any_eq_true, List.mem_filter, beq_iff_eq] at hc
      obtain ⟨d, ⟨_, hd⟩, rfl⟩ := hc
      simp [hanc, hne] at hd
    · apply Bool.eq_false_iff.mpr
      intro hc
      simp only [List.any_eq_true, List.mem_filter, beq_iff_eq] at hc
      obtain ⟨f, ⟨_, hf⟩, h⟩ := hc
      rw [h] at hf
      simp [hanc, hne] at hf
  · rw [if_neg hr]
    rw [pathExists_makedirsP]
    rw [hwf (Bool.eq_false_iff.mpr hr), take_any_eq_false_of_proper hanc hne]
    rfl

theorem append_single_ne_self (root : FsPath) (nm : String) : root ++ [nm] ≠ root := by
  intro h
  have := congrArg List.length h
  simp at this

/-- C10.  Implicit claim: both `create_sandbox` and `create_clone_directory`
first re-initialize the sandbox root, which deletes every direct child of
the root; afterwards the only proper descendant of the root that exists is
the freshly created directory, so no pre-existing sandbox under the root
survives the call and two sandboxes never coexist.  The hypothesis `hwf`
is the filesystem invariant that descendants cannot exist when the root
itself does not. -/
theorem create_sandbox_purges_siblings (root : FsPath) (fs : FS) (uuid8 : String)
    (rn : Option String) (q : FsPath)
    (hanc : isAncestorOf root q = true) (hne : q ≠ root)
    (hwf : pathExists fs root = false →
      ∀ r, isAncestorOf root r = true → r ≠ root → pathExists fs r = false) :
    (pathExists (create_sandbox root uuid8 fs).1 q = true ↔ q = root ++ [("sandbox-" ++ uuid8)])
    ∧ (pathExists (create_clone_directory root rn uuid8 fs).1 q = true
        ↔ q = root ++ [derive_clone_dir_name rn uuid8]) := by
  have hinit : ∀ r, isAncestorOf root r = true → r ≠ root →
      pathExists (initialize_sandbox_root root fs) r = false := by
    intro r h1 h2
    exact pathExists_initialize_of_proper root fs r h1 h2 (fun h => hwf h r h1 h2)
  constructor
  · show pathExists (makedirsP (initialize_sandbox_root root fs)
      (root ++ [("sandbox-" ++ uuid8)])) q = true ↔ _
    rw [pathExists_makedirsP, hinit q hanc hne, Bool.false_or]
    exact take_single_any_iff hanc hne
  · have hp : pathExists (initialize_sandbox_root root fs)
        (root ++ [derive_clone_dir_name rn uuid8]) = false :=
      hinit _ (isAncestorOf_append root _) (append_single_ne_self root _)
    show pathExists (makedirsP (if pathExists (initialize_sandbox_root root fs)
        (root ++ [derive_clone_dir_name rn uuid8]) = true then _ else _) _) q = true ↔ _
    rw [hp]
    simp only [Bool.false_eq_true, if_false]
    rw [pathExists_makedirsP, hinit q hanc hne, Bool.false_or]
    exact take_single_any_iff hanc hne

/-- Witness for C10: with root `["r"]` holding an old sandbox
`["r", "old"]`, creating a new sandbox with uuid slice `"ab"` removes the
old one, and the new directory `["r", "sandbox-ab"]` exists. -/
theorem create_sandbox_purges_siblings_witness :
    (pathExists (create_sandbox (["r"]) ("ab") (FS.mk [["r"], ["r", "old"]] [])).1
        (["r", "old"]) = true ↔ (["r", "old"] : FsPath) = ["r", "sandbox-ab"])
    ∧ (pathExists (create_clone_directory (["r"]) none ("ab")
        (FS.mk [["r"], ["r", "old"]] [])).1 (["r", "old"]) = true
          ↔ (["r", "old"] : FsPath) = ["r", "repo-ab"]) := by
  have h := create_sandbox_purges_siblings (["r"]) (FS.mk [["r"], ["r", "old"]] [])
    ("ab") none (["r", "old"]) (by decide) (by decide)
    (fun hroot => absurd hroot (by decide))
  exact ⟨h.1, h.2⟩

/-! ## Part 2: the coder-agent repository mutator

Embeds `coder-agent/tools/code_updater.py` (`apply_changes`,
`generate_diff_summary`) and the apply-then-summarize sequencing of
`CoderAgent.process_repo` (`coder-agent/core/agent.py` lines 75-86).
Here paths are the plain strings `os.path` works on.  Per-file I/O
failure (the `except Exception` arm of `apply_changes`) is reified as an
oracle `ioErr` mapping an absolute path to `some message` when writing it
raises, `none` when it succeeds.
-/

structure CFS where
  dirs : List String
  files : List (String × String)
deriving DecidableEq, Repr

/-- `os.path.exists` over the string-path filesystem. -/
def cExists (fs : CFS) (p : String) : Bool :=
  fs.dirs.any (fun d => d == p) || fs.files.any (fun f => f.1 == p)

/-- `os.path.join(a, b)`: `b` wins when absolute, else the
slash-joined path. -/
def joinPath (a b : String) : String :=
  if startsWithSlash b then b else a ++ "/" ++ b

/-- `os.path.dirname`: everything before the last slash (empty when the
path has no slash). -/
def dirname (s : String) : String :=
  let parts := splitOnChar ('/') s
  if parts.length ≤ 1 then "" else joinWith ("/") parts.dropLast

/-- `os.makedirs(d, exist_ok=True)` over string paths: `d` and each of
its ancestors become directories (the empty artifact of a leading slash
is skipped; duplicates are harmless for the `any`-based existence
test). -/
def makedirsC (fs : CFS) (d : String) : CFS :=
  let parts := splitOnChar ('/') d
  { fs with dirs := fs.dirs ++
      ((List.range parts.length).map
        (fun i => joinWith ("/") (parts.take (i + 1)))).filter (fun x => x ≠ "") }

/-- `open(p, 'w').write(content)`: the full content replaces any existing
file at `p` entirely (no merge); a missing file is created. -/
def writeFileC (fs : CFS) (p content : String) : CFS :=
  { fs with files :=
      if fs.files.any (fun f => f.1 == p) then
        fs.files.map (fun f => if f.1 == p then (p, content) else f)
      else fs.files ++ [(p, content)] }

/-- `apply_changes(repo_path, file_changes)` (`code_updater.py` lines
35-68): for each entry, resolve the absolute path, create missing parent
directories, write the content, and append `(path, True, "Success")`;
when the body raises (oracle `ioErr` returns a message) append
`(path, False, "Error updating file ...")` and continue with the next
entry. -/
def apply_changes (ioErr : String → Option String) (repo_path : String) (fs : CFS) :
    List (String × String) → CFS × List (String × Bool × String)
  | [] => (fs, [])
  | (file_path, content) :: rest =>
    let abs_path := joinPath repo_path file_path
    match ioErr abs_path with
    | some e =>
      let r := apply_changes ioErr repo_path fs rest
      (r.1, (file_path, false, "Error updating file " ++ file_path ++ ": " ++ e) :: r.2)
    | none =>
      let fs1 := writeFileC (makedirsC fs (dirname abs_path)) abs_path content
      let r := apply_changes ioErr repo_path fs1 rest
      (r.1, (file_path, true, "Success") :: r.2)

/-- `generate_diff_summary(repo_path, file_changes)` (`code_updater.py`
lines 70-92): one "Modified"/"Created" line per key, decided by
`os.path.exists` at the time the summary is generated. -/
def generate_diff_summary (repo_path : String) (fs : CFS)
    (file_changes : List (String × String)) : String :=
  file_changes.foldl (fun summary pc =>
    if cExists fs (joinPath repo_path pc.1) then summary ++ "Modified: " ++ pc.1 ++ "\n"
    else summary ++ "Created: " ++ pc.1 ++ "\n") ("\n=== CHANGES SUMMARY ===\n")

/-- The apply-and-summarize tail of `CoderAgent.process_repo`
(`coder-agent/core/agent.py` lines 75-86): `apply_changes` runs first,
`generate_diff_summary` is computed on the post-apply filesystem, and
the overall success flag is the conjunction of the per-file flags. -/
def process_repo_apply_step (ioErr : String → Option String) (repo_path : String)
    (fs : CFS) (file_changes : List (String × String)) :
    CFS × List (String × Bool × String) × String × Bool :=
  let r := apply_changes ioErr repo_path fs file_changes
  let summary := generate_diff_summary repo_path r.1 file_changes
  (r.1, r.2, summary, r.2.all (fun t => t.2.1))

/-! ### Claim C4: created-vs-modified summary (code bug) -/

/-- C4 evidence.  `process_repo` computes the change summary *after*
`apply_changes` has written the files, so a brand-new file in an empty
repository is reported as "Modified", not "Created" as the claim (and
§4.4 of the specification, which flags this as a source bug) requires;
an existence snapshot taken *before* the apply step would have reported
"Created".  The theorem evaluates the embedded code at the failing
input: empty repository `/repo`, patch set `{"new.txt": "x"}`, no I/O
failures. -/
theorem process_repo_summary_reports_modified_for_new_file :
    (process_repo_apply_step (fun _ => none) ("/repo") (CFS.mk [("/repo")] [])
        [(("new.txt"), ("x"))]).2.2.1
      = "\n=== CHANGES SUMMARY ===\nModified: new.txt\n"
    ∧ generate_diff_summary ("/repo") (CFS.mk [("/repo")] []) [(("new.txt"), ("x"))]
      = "\n=== CHANGES SUMMARY ===\nCreated: new.txt\n"
    ∧ (process_repo_apply_step (fun _ => none) ("/repo") (CFS.mk [("/repo")] [])
        [(("new.txt"), ("x"))]).2.1 = [(("new.txt"), true, ("Success"))] := by
  refine ⟨?_, ?_, ?_⟩ <;> rfl

/-! ### Claim C7: independent per-file apply -/

/-- C7.  Independent per-file apply: `apply_changes` returns exactly one
`(path, success, message)` triple per patch-set entry, in patch-set
order, where each entry's verdict depends only on its own write (an I/O
failure for one file neither aborts nor affects the remaining files);
the final filesystem is the left fold of the successful writes, each of
which creates the missing parent directories and overwrites the file
wholesale (`writeFileC`/`makedirsC`). -/
theorem apply_changes_per_entry (ioErr : String → Option String) (repo_path : String)
    (fs : CFS) (changes : List (String × String)) :
    (apply_changes ioErr repo_path fs changes).2
      = changes.map (fun pc =>
          match ioErr (joinPath repo_path pc.1) with
          | some e => (pc.1, false, "Error updating file " ++ pc.1 ++ ": " ++ e)
          | none => (pc.1, true, ("Success")))
    ∧ (apply_changes ioErr repo_path fs changes).1
      = changes.foldl (fun a pc =>
          match ioErr (joinPath repo_path pc.1) with
          | some _ => a
          | none => writeFileC (makedirsC a (dirname (joinPath repo_path pc.1)))
              (joinPath repo_path pc.1) pc.2) fs := by
  induction changes generalizing fs with
  | nil => exact ⟨rfl, rfl⟩
  | cons pc rest ih =>
    obtain ⟨p, c⟩ := pc
    constructor
    · show (apply_changes ioErr repo_path fs ((p, c) :: rest)).2 = _
      unfold apply_changes
      cases h : ioErr (joinPath repo_path p) with
      | some e => simpa [h] using (ih fs).1
      | none => simpa [h] using (ih _).1
    · show (apply_changes ioErr repo_path fs ((p, c) :: rest)).1 = _
      unfold apply_changes
      cases h : ioErr (joinPath repo_path p) with
      | some e => simpa [h] using (ih fs).2
      | none => simpa [h] using (ih _).2

/-! ## Part 3: the clone operations

Embeds `git-clone-agent/tools/git_ops.py` `clone_repo` (lines 29-52) and
`git-sandbox-agent/tools/git_ops.py` `clone_repo` (lines 30-45).  The
subprocess boundary is reified: an outcome is either a precondition
`RuntimeError` raised before any subprocess starts, or the argument list
handed to the version-control executable by `run_git_command`. -/

inductive CloneOutcome where
  | precondError (msg : String)
  | gitRun (args : List String)
deriving DecidableEq, Repr

def CloneOutcome.invokesGit : CloneOutcome → Bool
  | .precondError _ => false
  | .gitRun _ => true

/-- `clone_repo(repo_url, target_dir)` of `git-clone-agent/tools/git_ops.py`:
raises `RuntimeError` when the target directory does not exist
(`not target_dir.exists()`) or is non-empty (`any(target_dir.iterdir())`),
and only otherwise runs `git clone <url> .` inside it.  The two booleans
are the probed state of the target directory. -/
def cloneAgent_clone_repo (repo_url : String) (target_exists target_nonempty : Bool) :
    CloneOutcome :=
  if !target_exists then
    .precondError ("Target directory does not exist")
  else if target_nonempty then
    .precondError ("Target directory is not empty")
  else
    .gitRun [("clone"), repo_url, (".")]

/-- `clone_repo(repo_url, target_dir, branch)` of
`git-sandbox-agent/tools/git_ops.py`: builds the clone arguments and runs
git immediately — the function never inspects the target directory, so
there is no precondition check at all. -/
def sandboxAgent_clone_repo (repo_url : String) (branch : Option String) : CloneOutcome :=
  let clone_args := [("clone"), repo_url, (".")] ++
    (match branch with
     | some b => [("--branch"), b]
     | none => [])
  .gitRun clone_args

/-! ### Claim C8: clone precondition (corrected) -/

/-- C8 counterexample.  The claim quantifies over every clone operation,
but the git-sandbox-agent variant invokes the version-control executable
unconditionally: its embedding does not even take the target-directory
state as an input, so for a non-existent (or non-empty) target it still
runs `git clone` instead of failing with a precondition error. -/
theorem sandboxAgent_clone_repo_no_precondition :
    sandboxAgent_clone_repo ("https://example.com/r.git") none
      = CloneOutcome.gitRun [("clone"), ("https://example.com/r.git"), (".")]
    ∧ (sandboxAgent_clone_repo ("https://example.com/r.git") none).invokesGit = true := by
  exact ⟨rfl, rfl⟩

/-- C8 amended.  The git-clone-agent `clone_repo` runs git exactly when
the target directory exists and is empty, failing with the precondition
`RuntimeError` (and never reaching `run_git_command`) otherwise; the
git-sandbox-agent `clone_repo` performs no precondition check and always
invokes git. -/
theorem clone_repo_precondition (repo_url : String) (target_exists target_nonempty : Bool)
    (branch : Option String) :
    (cloneAgent_clone_repo repo_url target_exists target_nonempty).invokesGit
      = (target_exists && !target_nonempty)
    ∧ cloneAgent_clone_repo repo_url true false
      = CloneOutcome.gitRun [("clone"), repo_url, (".")]
    ∧ cloneAgent_clone_repo repo_url false target_nonempty
      = CloneOutcome.precondError ("Target directory does not exist")
    ∧ cloneAgent_clone_repo repo_url true true
      = CloneOutcome.precondError ("Target directory is not empty")
    ∧ (sandboxAgent_clone_repo repo_url branch).invokesGit = true := by
  refine ⟨?_, rfl, ?_, rfl, rfl⟩
  · cases target_exists <;> cases target_nonempty <;> rfl
  · cases target_nonempty <;> rfl

/-! ## Part 4: the validation runner

Embeds `git-sandbox-agent/tools/validation.py`.  `subprocess.run` is the
oracle `exec`, mapping the command list to the triple
(returncode, stdout, stderr); marker-file probing (`(cwd / f).exists()`)
is the oracle `fe` on file names relative to `cwd`. -/

structure ValidationResult where
  success : Bool
  output : String
  error : String
  command : String
deriving DecidableEq, Repr

/-- The default-test-command probe of `run_tests` (lines 33-40):
pytest markers first, then `setup.py`, else unittest discovery. -/
def default_test_command (fe : String → Bool) : List String :=
  if fe ("pytest.ini") || fe ("conftest.py") then [("pytest")]
  else if fe ("setup.py") then [("python"), ("setup.py"), ("test")]
  else [("python"), ("-m"), ("unittest"), ("discover")]

/-- Python's `if not test_command:` treats both `None` and the empty
list as "no explicit command". -/
def resolve_test_command (fe : String → Bool) (test_command : Option (List String)) :
    List String :=
  match test_command with
  | none => default_test_command fe
  | some c => if c = [] then default_test_command fe else c

/-- `run_tests(cwd, test_command)` (lines 23-51): resolves the command,
executes it via `run_command` (a plain `subprocess.run` wrapper that
never raises on a non-zero exit), and packages returncode/stdout/stderr
into the result dictionary. -/
def run_tests (exec : List String → Int × String × String) (fe : String → Bool)
    (test_command : Option (List String)) : ValidationResult :=
  let cmd := resolve_test_command fe test_command
  let r := exec cmd
  { success := r.1 == 0, output := r.2.1, error := r.2.2, command := joinWith (" ") cmd }

/-- The default-linter probe of `run_linter` (lines 64-70). -/
def default_linter_command (fe : String → Bool) : List String :=
  if fe (".flake8") || fe ("setup.cfg") then [("flake8")]
  else if fe (".pylintrc") then [("pylint"), (".")]
  else [("flake8"), (".")]

def resolve_linter_command (fe : String → Bool) (linter_command : Option (List String)) :
    List String :=
  match linter_command with
  | none => default_linter_command fe
  | some c => if c = [] then default_linter_command fe else c

/-- `run_linter(cwd, linter_command)` (lines 53-81). -/
def run_linter (exec : List String → Int × String × String) (fe : String → Bool)
    (linter_command : Option (List String)) : ValidationResult :=
  let cmd := resolve_linter_command fe linter_command
  let r := exec cmd
  { success := r.1 == 0, output := r.2.1, error := r.2.2, command := joinWith (" ") cmd }

/-- The command built by `run_custom_script` (lines 83-105):
`["python", script_path]` extended with the arguments (Python's
`if args:` makes `None` and `[]` identical here). -/
def custom_script_command (script_path : String) (args : Option (List String)) :
    List String :=
  [("python"), script_path] ++ (match args with | some a => a | none => [])

/-- `run_custom_script(cwd, script_path, args)` (lines 83-105). -/
def run_custom_script (exec : List String → Int × String × String) (script_path : String)
    (args : Option (List String)) : ValidationResult :=
  let cmd := custom_script_command script_path args
  let r := exec cmd
  { success := r.1 == 0, output := r.2.1, error := r.2.2, command := joinWith (" ") cmd }

/-! ### Claim C9: validation never raises on a failing check -/

/-- C9.  For every working directory (probe oracle `fe`), process oracle
`exec` and explicit-or-defaulted command, `run_tests`, `run_linter` and
`run_custom_script` return a result whose success flag is true exactly
when the executed process exits with code zero, carrying the captured
stdout, stderr and the space-joined resolved command string.  All three
are total functions of their oracles — a failing check is returned, not
raised; only `subprocess.run` itself failing to launch the command
(outside the oracle) can raise. -/
theorem validation_reports_exit_code (exec : List String → Int × String × String)
    (fe : String → Bool) (tc lc : Option (List String)) (sp : String)
    (args : Option (List String)) :
    ((run_tests exec fe tc).success = true ↔ (exec (resolve_test_command fe tc)).1 = 0)
    ∧ (run_tests exec fe tc).output = (exec (resolve_test_command fe tc)).2.1
    ∧ (run_tests exec fe tc).error = (exec (resolve_test_command fe tc)).2.2
    ∧ (run_tests exec fe tc).command = joinWith (" ") (resolve_test_command fe tc)
    ∧ ((run_linter exec fe lc).success = true ↔ (exec (resolve_linter_command fe lc)).1 = 0)
    ∧ (run_linter exec fe lc).output = (exec (resolve_linter_command fe lc)).2.1
    ∧ (run_linter exec fe lc).error = (exec (resolve_linter_command fe lc)).2.2
    ∧ (run_linter exec fe lc).command = joinWith (" ") (resolve_linter_command fe lc)
    ∧ ((run_custom_script exec sp args).success = true
        ↔ (exec (custom_script_command sp args)).1 = 0)
    ∧ (run_custom_script exec sp args).output = (exec (custom_script_command sp args)).2.1
    ∧ (run_custom_script exec sp args).error = (exec (custom_script_command sp args)).2.2
    ∧ (run_custom_script exec sp args).command
        = joinWith (" ") (custom_script_command sp args) := by
  refine ⟨?_, rfl, rfl, rfl, ?_, rfl, rfl, rfl, ?_, rfl, rfl, rfl⟩ <;>
    simp [run_tests, run_linter, run_custom_script]

/-! ## Part 5: the commit-and-push workflow step

Embeds `git-orchestrator-agent/workflow_steps/step3_commit_changes.py`
(`commit_changes`, lines 9-92) and
`git-commit-agent/core/agent.py` (`GitCommitAgent` state and the
`commit_and_push` helper, lines 244-276).  The git subprocess boundary
is reified as a `CommitEnv` oracle giving each git operation's fate. -/

structure CommitEnv where
  /-- `GitCommitAgent._validate_repo` passes: the directory exists and
  contains `.git`. -/
  validRepo : Bool
  /-- `git checkout -b <branch>` succeeds. -/
  branchOk : Bool
  /-- The `open(file_path, 'w')` write in `commit_changes` succeeds. -/
  writeOk : Bool
  /-- `git add .` succeeds. -/
  stageOk : Bool
  /-- `git commit -m <msg>` succeeds. -/
  commitOk : Bool
  /-- `git rev-parse HEAD` after the commit (`None` when it raises;
  `GitCommitAgent.commit` swallows that error). -/
  hashResult : Option String
  /-- `git push` succeeds. -/
  pushOk : Bool
deriving DecidableEq, Repr

/-- `commit_changes(repo_path, branch_name, file_name, file_content,
commit_message)` (`step3_commit_changes.py` lines 9-92).  Inside the
`try` block the module is loaded and `GitCommitAgent(repo_path)` is
constructed (raising when the repository is invalid); the very next
statement, line 45, is `sys.path = path_copy` — but `path_copy` is never
assigned anywhere in this module (its siblings `step2`/`step6` first do
`path_copy = sys.path.copy()`), so a `NameError` is raised
unconditionally, caught by the blanket `except Exception` at line 90,
and the function returns `(False, None)` before the branch is ever
created.  Lines 48-89 (branch, file write, stage, commit, soft push)
are unreachable. -/
def commit_changes (env : CommitEnv) : Bool × Option String :=
  if env.validRepo = false then (false, none)
  else (false, none)

/-- The intended body of `commit_changes` — lines 48-92, the code made
unreachable by the `NameError` at line 45: create the branch, write the
file, stage, commit; then attempt the push, and whether or not the push
succeeds (its failure is only logged with a "this is expected without
proper authentication" note) return `(True, commit_agent.commit_hash)`.
Every failing git step before the push returns `(False, None)`. -/
def commit_changes_unreachable_body (env : CommitEnv) : Bool × Option String :=
  if env.validRepo = false then (false, none)
  else if env.branchOk = false then (false, none)
  else if env.writeOk = false then (false, none)
  else if env.stageOk = false then (false, none)
  else if env.commitOk = false then (false, none)
  else (true, env.hashResult)

/-- The dictionary returned by `GitCommitAgent.get_status`. -/
structure AgentStatus where
  success : Bool
  commit_hash : Option String
  branch : Option String
  error : Option String
deriving DecidableEq, Repr

/-- `commit_and_push(repo_dir, commit_message, push, branch,
create_branch, base_branch, remote)` (`git-commit-agent/core/agent.py`
lines 244-276): threads the `GitCommitAgent` mutable state
(`success`, `commit_hash`, `branch_name`, `error_message`) through
`create_branch`, `commit_all` and `push`, returning `get_status()`.
Each agent method sets `success` to the outcome of that one operation,
so a failed push overwrites the `success = True` left by the commit.
An invalid repository raises out of the constructor (`Except.error`). -/
def commit_and_push (env : CommitEnv) (doPush : Bool) (branch : Option String)
    (createBranch : Bool) (currentBranch : String) : Except String AgentStatus :=
  if env.validRepo = false then
    .error ("Repository directory does not exist or is not a Git repository")
  else
    -- create a new branch if requested
    let afterBranch : Bool × AgentStatus :=
      if createBranch && branch.isSome then
        if env.branchOk then (true, ⟨true, none, branch, none⟩)
        else (false, ⟨false, none, none, some ("Git command failed: branch")⟩)
      else (true, ⟨false, none, none, none⟩)
    if afterBranch.1 = false then .ok afterBranch.2
    else
      -- stage and commit all changes
      let s1 := afterBranch.2
      if env.stageOk = false || env.commitOk = false then
        .ok { s1 with success := false, error := some ("Git command failed: commit") }
      else
        let s2 := { s1 with success := true, commit_hash := env.hashResult }
        -- push if requested; the push return value is discarded, but the
        -- agent state it leaves behind is what get_status reports
        let s3 :=
          if doPush then
            if env.pushOk then
              { s2 with success := true, branch := some (branch.getD currentBranch) }
            else
              { s2 with success := false,
                        branch := some (branch.getD currentBranch),
                        error := some ("Git command failed: push") }
          else s2
        .ok s3

/-! ### Claim C6: soft push failure (code bug) -/

/-- C6 evidence.  In the environment where the repository is valid,
branch creation, file write, staging and commit all succeed, the commit
hash is available, and only the push fails, the claim (and the intent
plainly visible in lines 79-89 of `step3_commit_changes.py`) says the
step returns success together with the commit hash.  The code does not:
`commit_changes` returns `(False, None)` for every environment because
of the undefined `path_copy` at line 45, while the unreachable remainder
of its body would have returned `(True, some hash)` exactly as the claim
states; and `commit_and_push` of the git-commit-agent reports
`success = False` (with the hash still present) because the failed
push's `self.success = False` overwrites the commit's `True` in
`get_status`. -/
theorem commit_changes_path_copy_bug :
    commit_changes (CommitEnv.mk true true true true true (some ("abc1234")) false)
      = (false, none)
    ∧ commit_changes_unreachable_body
        (CommitEnv.mk true true true true true (some ("abc1234")) false)
      = (true, some ("abc1234"))
    ∧ commit_and_push (CommitEnv.mk true true true true true (some ("abc1234")) false)
        true (some ("feature-x")) true ("main")
      = Except.ok (AgentStatus.mk false (some ("abc1234")) (some ("feature-x"))
          (some ("Git command failed: push")))
    ∧ (∀ env : CommitEnv, commit_changes env = (false, none)) := by
  refine ⟨rfl, rfl, rfl, ?_⟩
  intro env
  unfold commit_changes
  by_cases h : env.validRepo = false <;> simp [h]

/-! ## Part 6: the patch protocol

Embeds `parse_file_changes` (`coder-agent/tools/code_updater.py` lines
8-33) and the wire-format production of `bundle_code_files`
(`coder-agent/tools/code_collector.py` lines 59-97).

`parse_file_changes` applies `re.finditer` with the pattern

    === FILE: ([^\n]+) ===\n([\s\S]*?)(?=\n=== FILE:|$)

Operationally, on char lists: scanning left to right, a match starts at
an occurrence of the literal `"=== FILE: "` whose line (up to the next
newline, which must exist) ends in `" ==="` with a non-empty path group
between; the greedy `[^\n]+` makes the path everything up to the final
`" ==="` of that line.  The lazy content group then extends to the first
position where the remaining text starts with the lookahead literal
`"\n=== FILE:"`, or Python's `$` matches — at end of input or just
before a final trailing newline.  The next scan resumes at the match
end (the lookahead is not consumed); a failed match attempt advances the
scan by one character.  Each matched block's path and content are
`.strip()`ped and inserted into a Python dict when both are non-empty.
-/

/-- Python `str.strip()`s whitespace class (the ASCII part:
space, tab, newline, carriage return, vertical tab, form feed). -/
def pyIsSpace (c : Char) : Bool :=
  c = ' ' || c = '\t' || c = '\n' || c = '\r' || c = Char.ofNat 11 || c = Char.ofNat 12

/-- Python `str.strip()` over char lists. -/
def stripList (cs : List Char) : List Char :=
  ((cs.dropWhile pyIsSpace).reverse.dropWhile pyIsSpace).reverse

/-- Python `str.strip()`. -/
def pyStrip (s : String) : String :=
  String.mk (stripList s.data)

/-- The block-opening literal `"=== FILE: "` of the pattern. -/
def fileMarker : List Char :=
  ("=== FILE: ").data

/-- The `" ==="` closing the header line. -/
def headerClose : List Char :=
  (" ===").data

/-- The lookahead literal `"\n=== FILE:"` terminating a lazy content
group. -/
def contentStop : List Char :=
  ("\n=== FILE:").data

/-- Split at the first newline: `some (line, rest)` when one exists. -/
def splitAtNewline : List Char → Option (List Char × List Char)
  | [] => none
  | c :: cs =>
    if c = '\n' then some ([], cs)
    else
      match splitAtNewline cs with
      | some r => some (c :: r.1, r.2)
      | none => none

/-- Try the header `=== FILE: ([^\n]+) ===\n` at the current position:
the marker must be present, the rest of its line must end in `" ==="`
with a non-empty path before it, and the newline must exist.  Returns
the path group and the text after the newline. -/
def headerAt (cs : List Char) : Option (List Char × List Char) :=
  if fileMarker.isPrefixOf cs then
    match splitAtNewline (cs.drop fileMarker.length) with
    | some r =>
      if 5 ≤ r.1.length ∧ headerClose.isSuffixOf r.1 then
        some (r.1.take (r.1.length - 4), r.2)
      else none
    | none => none
  else none

/-- The lazy content group `([\s\S]*?)(?=\n=== FILE:|$)`: consume
characters until the remaining text starts with the lookahead literal,
or only a final newline remains (`$` before a trailing newline), or the
input ends.  Returns the content group and the unconsumed rest. -/
def takeContent : List Char → List Char × List Char
  | [] => ([], [])
  | c :: cs =>
    if contentStop.isPrefixOf (c :: cs) then ([], c :: cs)
    else if c = '\n' ∧ cs = [] then ([], c :: cs)
    else
      let r := takeContent cs
      (c :: r.1, r.2)

/-- One `re.finditer` pass: at each position try the full match (header
then content); on success emit the `(path, content)` groups and resume
at the match end, otherwise advance one character.  Every step consumes
at least one character, so fuel equal to the input length suffices; the
fuel makes the recursion structural (hence kernel-computable). -/
def scanBlocksFuel : Nat → List Char → List (List Char × List Char)
  | 0, _ => []
  | _ + 1, [] => []
  | fuel + 1, c :: cs =>
    match headerAt (c :: cs) with
    | some pr =>
      let r := takeContent pr.2
      (pr.1, r.1) :: scanBlocksFuel fuel r.2
    | none => scanBlocksFuel fuel cs

/-- All matches of the file-block pattern, in order. -/
def scanBlocks (cs : List Char) : List (List Char × List Char) :=
  scanBlocksFuel cs.length cs

/-- Python dict assignment `d[k] = v`: an existing key keeps its
position and gets the new value, a new key is appended. -/
def dictInsert (m : List (String × String)) (k v : String) : List (String × String) :=
  if m.any (fun p => p.1 = k) then m.map (fun p => if p.1 = k then (k, v) else p)
  else m ++ [(k, v)]

/-- `parse_file_changes(response)` (`code_updater.py` lines 8-33): for
each regex match, strip the path and the content and store them in the
dict when both are non-empty after stripping. -/
def parse_file_changes (response : String) : List (String × String) :=
  (scanBlocks response.data).foldl (fun m pr =>
    let file_path := pyStrip (String.mk pr.1)
    let content := pyStrip (String.mk pr.2)
    if file_path ≠ "" ∧ content ≠ "" then dictInsert m file_path content else m) []

/-- The wire-format production of `bundle_code_files`
(`code_collector.py` lines 76-97): for each collected file the bundle
gains `"\n=== FILE: " + relative_path + " ===\n" + content + "\n"`
(files with empty content are skipped), and the result is
`.strip()`ped.  File collection, reading and the line-count limits act
before this loop and are outside the wire format, so the encoder takes
the path-content pairs directly. -/
def bundle_encode (files : List (String × String)) : String :=
  pyStrip (files.foldl (fun bundled_code pc =>
    if pc.2 = "" then bundled_code
    else bundled_code ++ "\n=== FILE: " ++ pc.1 ++ " ===\n" ++ pc.2 ++ "\n") (""))

/-! ### Dictionary lemmas for the parse contract -/

/-- The stripped-and-filtered block list of an input: what survives the
`if file_path and content:` guard, in match order, before dict
insertion collapses duplicate paths. -/
def cleanBlocks (s : String) : List (String × String) :=
  ((scanBlocks s.data).map (fun pr => (pyStrip (String.mk pr.1), pyStrip (String.mk pr.2)))).filter
    (fun pc => pc.1 != "" && pc.2 != "")

/-- Building a Python dict by repeated assignment. -/
def buildDict (bs : List (String × String)) : List (String × String) :=
  bs.foldl (fun m pc => dictInsert m pc.1 pc.2) []

/-- First association (Python dict lookup). -/
def lookupVal : List (String × String) → String → Option String
  | [], _ => none
  | (k, v) :: m, q => if k = q then some v else lookupVal m q

/-- Value of the last entry with the given key. -/
def lastVal : List (String × String) → String → Option String
  | [], _ => none
  | (k, v) :: m, q =>
    match lastVal m q with
    | some w => some w
    | none => if k = q then some v else none

/-- Deduplication keeping first occurrences: Python dict key order. -/
def dedupKeys (l : List String) : List String :=
  l.foldl (fun acc k => if acc.any (fun x => x = k) then acc else acc ++ [k]) []

theorem parse_eq_buildDict_fold (blocks : List (List Char × List Char))
    (m : List (String × String)) :
    blocks.foldl (fun m pr =>
      let file_path := pyStrip (String.mk pr.1)
      let content := pyStrip (String.mk pr.2)
      if file_path ≠ "" ∧ content ≠ "" then dictInsert m file_path content else m) m
    = ((blocks.map (fun pr => (pyStrip (String.mk pr.1), pyStrip (String.mk pr.2)))).filter
        (fun pc => pc.1 != "" && pc.2 != "")).foldl (fun m pc => dictInsert m pc.1 pc.2) m := by
  induction blocks generalizing m with
  | nil => rfl
  | cons pr rest ih =>
    simp only [List.map_cons, List.foldl_cons, List.filter_cons]
    by_cases h : pyStrip (String.mk pr.1) ≠ "" ∧ pyStrip (String.mk pr.2) ≠ ""
    · rw [if_pos h, if_pos (by simpa [bne_iff_ne] using h)]
      exact ih _
    · rw [if_neg h, if_neg (by simpa [bne_iff_ne] using h)]
      exact ih m

theorem parse_eq_buildDict (s : String) :
    parse_file_changes s = buildDict (cleanBlocks s) := by
  unfold parse_file_changes buildDict cleanBlocks
  exact parse_eq_buildDict_fold (scanBlocks s.data) []

theorem dictInsert_pred (P : String × String → Prop) (m : List (String × String))
    (k v : String) (hm : ∀ pc ∈ m, P pc) (hkv : P (k, v)) :
    ∀ pc ∈ dictInsert m k v, P pc := by
  intro pc hpc
  unfold dictInsert at hpc
  by_cases h : m.any (fun p => p.1 = k) = true
  · rw [if_pos h] at hpc
    obtain ⟨e, he, rfl⟩ := List.mem_map.mp hpc
    by_cases h2 : e.1 = k
    · simpa [h2] using hkv
    · simpa [h2] using hm e he
  · rw [if_neg h] at hpc
    rcases List.mem_append.mp hpc with h2 | h2
    · exact hm pc h2
    · rw [List.mem_singleton.mp h2]
      exact hkv

theorem buildDict_pred (P : String × String → Prop) (bs : List (String × String))
    (hbs : ∀ pc ∈ bs, P pc) : ∀ pc ∈ buildDict bs, P pc := by
  suffices h : ∀ m, (∀ pc ∈ m, P pc) →
      ∀ pc ∈ bs.foldl (fun m pc => dictInsert m pc.1 pc.2) m, P pc by
    exact h [] (by simp)
  induction bs with
  | nil => intro m hm; simpa using hm
  | cons e rest ih =>
    intro m hm pc hpc
    simp only [List.foldl_cons] at hpc
    refine ih (fun x hx => hbs x (by simp [hx])) _ ?_ pc hpc
    exact dictInsert_pred P m e.1 e.2 hm (by simpa using hbs e (by simp))

theorem lookupVal_map_update (m : List (String × String)) (k v q : String) :
    lookupVal (m.map (fun p => if p.1 = k then (k, v) else p)) q
      = if q = k then (if m.any (fun p => p.1 = k) then some v else none)
        else lookupVal m q := by
  induction m with
  | nil => by_cases h : q = k <;> simp [lookupVal, h]
  | cons e rest ih =>
    obtain ⟨ek, ev⟩ := e
    simp only [List.map_cons]
    by_cases h1 : ek = k
    · subst h1
      rw [if_pos (show ((ek, ev) : String × String).1 = ek from rfl)]
      by_cases h2 : q = ek
      · subst h2
        simp [lookupVal, List.any_cons]
      · have hkq : ¬ ek = q := fun hc => h2 hc.symm
        simp [lookupVal, hkq, h2, ih, List.any_cons]
    · rw [if_neg (show ¬((ek, ev) : String × String).1 = k from h1)]
      by_cases h2 : ek = q
      · have hqk : ¬ q = k := fun hc => h1 (h2.trans hc)
        simp [lookupVal, hqk, h2]
      · simp only [lookupVal, ih, if_neg h2, List.any_cons]
        simp only [decide_eq_false h1, Bool.false_or]

theorem lookupVal_append (m1 m2 : List (String × String)) (q : String) :
    lookupVal (m1 ++ m2) q
      = match lookupVal m1 q with
        | some w => some w
        | none => lookupVal m2 q := by
  induction m1 with
  | nil => simp [lookupVal]
  | cons e rest ih =>
    obtain ⟨ek, ev⟩ := e
    by_cases h : ek = q <;> simp [lookupVal, h, ih]

theorem lookupVal_eq_none_of_any_false (m : List (String × String)) (k : String)
    (h : m.any (fun p => p.1 = k) = false) : lookupVal m k = none := by
  induction m with
  | nil => rfl
  | cons e rest ih =>
    simp only [List.any_cons, Bool.or_eq_false_iff] at h
    obtain ⟨ek, ev⟩ := e
    have : ek ≠ k := by simpa using h.1
    simp [lookupVal, this, ih h.2]

theorem dictInsert_lookup (m : List (String × String)) (k v q : String) :
    lookupVal (dictInsert m k v) q = if q = k then some v else lookupVal m q := by
  unfold dictInsert
  by_cases h : m.any (fun p => p.1 = k) = true
  · rw [if_pos h, lookupVal_map_update]
    by_cases h2 : q = k <;> simp [h2, h]
  · rw [if_neg h, lookupVal_append]
    by_cases h2 : q = k
    · subst h2
      rw [lookupVal_eq_none_of_any_false m q (Bool.eq_false_iff.mpr h)]
      simp [lookupVal]
    · cases hl : lookupVal m q <;> simp [lookupVal, h2, hl, Ne.symm h2]

theorem foldl_dictInsert_lookup (bs : List (String × String)) (m : List (String × String))
    (q : String) :
    lookupVal (bs.foldl (fun m pc => dictInsert m pc.1 pc.2) m) q
      = match lastVal bs q with
        | some w => some w
        | none => lookupVal m q := by
  induction bs generalizing m with
  | nil => simp [lastVal]
  | cons e rest ih =>
    obtain ⟨ek, ev⟩ := e
    simp only [List.foldl_cons, lastVal, ih]
    cases hl : lastVal rest q with
    | some w => simp
    | none =>
      simp only [dictInsert_lookup]
      by_cases h : q = ek
      · subst h
        simp
      · simp [h, Ne.symm h]

theorem buildDict_lookup (bs : List (String × String)) (q : String) :
    lookupVal (buildDict bs) q = lastVal bs q := by
  unfold buildDict
  rw [foldl_dictInsert_lookup]
  cases lastVal bs q <;> simp [lookupVal]

theorem dictInsert_keys (m : List (String × String)) (k v : String) :
    (dictInsert m k v).map Prod.fst
      = if (m.map Prod.fst).any (fun x => x = k) then m.map Prod.fst
        else m.map Prod.fst ++ [k] := by
  unfold dictInsert
  rw [any_map_eq]
  by_cases h : m.any (fun p => p.1 = k) = true
  · rw [if_pos h, if_pos h, List.map_map]
    apply List.map_congr_left
    intro e _
    by_cases h2 : e.1 = k <;> simp [h2, Function.comp]
  · rw [if_neg h, if_neg h]
    simp

theorem foldl_dictInsert_keys (bs : List (String × String)) (m : List (String × String)) :
    (bs.foldl (fun m pc => dictInsert m pc.1 pc.2) m).map Prod.fst
      = (bs.map Prod.fst).foldl
          (fun acc k => if acc.any (fun x => x = k) then acc else acc ++ [k])
          (m.map Prod.fst) := by
  induction bs generalizing m with
  | nil => rfl
  | cons e rest ih =>
    simp only [List.foldl_cons, List.map_cons, ih, dictInsert_keys]

theorem buildDict_keys (bs : List (String × String)) :
    (buildDict bs).map Prod.fst = dedupKeys (bs.map Prod.fst) := by
  unfold buildDict dedupKeys
  exact foldl_dictInsert_keys bs []

/-! ### Lemmas about Python strip -/

theorem stripList_eq_rdrop (l : List Char) :
    stripList l = List.rdropWhile pyIsSpace (List.dropWhile pyIsSpace l) := rfl

theorem dropWhile_head_false {p : Char → Bool} :
    ∀ {l a : _} {as : List Char}, List.dropWhile p l = a :: as → p a = false := by
  intro l
  induction l with
  | nil => intro a as h; simp [List.dropWhile] at h
  | cons x xs ih =>
    intro a as h
    rw [List.dropWhile_cons] at h
    by_cases hx : p x = true
    · rw [if_pos hx] at h
      exact ih h
    · rw [if_neg hx] at h
      cases h
      exact Bool.eq_false_iff.mpr hx

theorem dropWhile_eq_self_of_head_false {p : Char → Bool} {l : List Char}
    (h : ∀ a as, l = a :: as → p a = false) : List.dropWhile p l = l := by
  cases l with
  | nil => rfl
  | cons a as =>
    rw [List.dropWhile_cons, if_neg (by simp [h a as rfl])]

theorem stripList_parts {l : List Char} (h : stripList l = l) :
    List.dropWhile pyIsSpace l = l ∧ List.rdropWhile pyIsSpace l = l := by
  have hd : List.dropWhile pyIsSpace l = l := by
    apply List.IsSuffix.eq_of_length (List.dropWhile_suffix pyIsSpace)
    have h1 : stripList l <+: List.dropWhile pyIsSpace l := by
      rw [stripList_eq_rdrop]
      exact List.rdropWhile_prefix _ _
    rw [h] at h1
    have h2 := List.IsPrefix.length_le h1
    have h3 := List.IsSuffix.length_le (List.dropWhile_suffix pyIsSpace (l := l))
    omega
  refine ⟨hd, ?_⟩
  have h2 := h
  rw [stripList_eq_rdrop, hd] at h2
  exact h2

theorem stripList_of_parts {l : List Char} (h1 : List.dropWhile pyIsSpace l = l)
    (h2 : List.rdropWhile pyIsSpace l = l) : stripList l = l := by
  rw [stripList_eq_rdrop, h1, h2]

theorem stripList_idem (l : List Char) : stripList (stripList l) = stripList l := by
  apply stripList_of_parts
  · rw [stripList_eq_rdrop]
    apply dropWhile_eq_self_of_head_false
    intro a as hA
    obtain ⟨t, ht⟩ := List.rdropWhile_prefix pyIsSpace (List.dropWhile pyIsSpace l)
    rw [hA] at ht
    exact dropWhile_head_false (l := l) (by rw [← ht]; rfl)
  · rw [stripList_eq_rdrop]
    exact List.rdropWhile_idempotent _ _

theorem pyStrip_idem (s : String) : pyStrip (pyStrip s) = pyStrip s := by
  unfold pyStrip
  rw [stripList_idem]

theorem stripList_append_newline {c : List Char} (h : stripList c = c) :
    stripList (c ++ ['\n']) = c := by
  rcases eq_or_ne c [] with rfl | hne
  · rfl
  · obtain ⟨hd, hr⟩ := stripList_parts h
    rw [stripList_eq_rdrop, List.dropWhile_append, hd]
    rw [show c.isEmpty = false by simp [hne]]
    simp only [Bool.false_eq_true, if_false]
    rw [List.rdropWhile_concat_pos _ _ '\n' (by rfl), hr]

theorem stripList_cons_newline (X : List Char) :
    stripList ('\n' :: X) = stripList X := by
  rw [stripList_eq_rdrop, stripList_eq_rdrop, List.dropWhile_cons]
  rw [if_pos (by rfl)]

/-! ### Claim C3: the patch decode contract -/

/-- C3.  For every input string, `parse_file_changes` (i) returns — never
raises: it is a total function — a mapping whose every entry has the
path and the content trimmed (strip-invariant) and non-empty, blocks
with an empty trimmed path or content having been omitted; (ii) its keys
are the first-seen-order deduplication of the surviving blocks' paths;
and (iii) the value at each key is the content of the *last* surviving
block with that path. -/
theorem parse_file_changes_contract (s : String) :
    (∀ pc ∈ parse_file_changes s,
        pc.1 = pyStrip pc.1 ∧ pc.2 = pyStrip pc.2 ∧ pc.1 ≠ "" ∧ pc.2 ≠ "")
    ∧ (parse_file_changes s).map Prod.fst = dedupKeys ((cleanBlocks s).map Prod.fst)
    ∧ ∀ k, lookupVal (parse_file_changes s) k = lastVal (cleanBlocks s) k := by
  have hP : ∀ pc ∈ cleanBlocks s,
      pc.1 = pyStrip pc.1 ∧ pc.2 = pyStrip pc.2 ∧ pc.1 ≠ "" ∧ pc.2 ≠ "" := by
    intro pc hpc
    unfold cleanBlocks at hpc
    obtain ⟨hmem, hcond⟩ := List.mem_filter.mp hpc
    obtain ⟨pr, _, rfl⟩ := List.mem_map.mp hmem
    have hne := hcond
    simp only [Bool.and_eq_true, bne_iff_ne, ne_eq] at hne
    exact ⟨(pyStrip_idem _).symm, (pyStrip_idem _).symm, hne.1, hne.2⟩
  rw [parse_eq_buildDict]
  exact ⟨buildDict_pred _ _ hP, buildDict_keys _, fun k => buildDict_lookup _ k⟩

/-- Witness for C3 on the concrete input `"=== FILE: a ===\nhi"`, whose
parse contains the entry `("a", "hi")`. -/
theorem parse_file_changes_contract_witness :
    (("a", "hi") : String × String).1 = pyStrip (("a", "hi") : String × String).1
    ∧ (("a", "hi") : String × String).2 = pyStrip (("a", "hi") : String × String).2
    ∧ (("a", "hi") : String × String).1 ≠ "" ∧ (("a", "hi") : String × String).2 ≠ "" :=
  (parse_file_changes_contract ("=== FILE: a ===\nhi")).1 (("a", "hi")) (by decide)

/-! ### Claim C5: wire-format round trip

The shape of the encoded bundle: after the final `.strip()`, a non-empty
bundle is `wireBody files` — blocks `=== FILE: p ===\n c` joined by a
blank line (the content's trailing newline plus the next block's leading
newline). -/

def sepNlData : List Char := (" ===\n").data

def wireTail : List (String × String) → List Char
  | [] => []
  | (p, c) :: rest =>
    '\n' :: ('\n' :: (fileMarker ++ (p.data ++ (sepNlData ++ (c.data ++ wireTail rest)))))

def wireBody : List (String × String) → List Char
  | [] => []
  | (p, c) :: rest => fileMarker ++ (p.data ++ (sepNlData ++ (c.data ++ wireTail rest)))

/-- The raw (pre-strip) bundle text contributed by the encoder loop. -/
def rawList : List (String × String) → List Char
  | [] => []
  | (p, c) :: rest =>
    '\n' :: (fileMarker ++ (p.data ++ (sepNlData ++ (c.data ++ ('\n' :: rawList rest)))))

/-- The conditions of the amended round-trip claim for one patch-set
entry: non-empty strip-invariant path without newlines, and non-empty
strip-invariant content not containing the parser's stop literal
`"\n=== FILE:"`. -/
abbrev GoodEntry (pc : String × String) : Prop :=
  pc.1 ≠ "" ∧ pyStrip pc.1 = pc.1 ∧ '\n' ∉ pc.1.data
  ∧ pc.2 ≠ "" ∧ pyStrip pc.2 = pc.2 ∧ ¬ contentStop <:+: pc.2.data

theorem string_data_ne_nil {c : String} (h : c ≠ "") : c.data ≠ [] := by
  intro hd
  apply h
  cases c with
  | mk l =>
    simp only at hd
    rw [hd]

theorem pyStrip_fix_data {c : String} (h : pyStrip c = c) : stripList c.data = c.data := by
  have := congrArg String.data h
  simpa [pyStrip] using this

theorem wireTail_eq_cons (x : String × String) (xs : List (String × String)) :
    wireTail (x :: xs) = '\n' :: ('\n' :: wireBody (x :: xs)) := by
  obtain ⟨p, c⟩ := x
  rfl

theorem bundle_foldl_data (files : List (String × String)) (acc : String)
    (hc : ∀ pc ∈ files, pc.2 ≠ "") :
    (files.foldl (fun bundled_code pc =>
        if pc.2 = "" then bundled_code
        else bundled_code ++ "\n=== FILE: " ++ pc.1 ++ " ===\n" ++ pc.2 ++ "\n") acc).data
      = acc.data ++ rawList files := by
  induction files generalizing acc with
  | nil => simp [rawList]
  | cons pc rest ih =>
    obtain ⟨p, c⟩ := pc
    have hcne : c ≠ "" := by simpa using hc (p, c) (by simp)
    simp only [List.foldl_cons, if_neg hcne]
    rw [ih _ (fun x hx => hc x (by simp [hx]))]
    show (acc ++ "\n=== FILE: " ++ p ++ " ===\n" ++ c ++ "\n").data ++ rawList rest = _
    simp [rawList, fileMarker, sepNlData, List.append_assoc]

theorem rawList_shape (files : List (String × String)) (h : files ≠ []) :
    rawList files = '\n' :: (wireBody files ++ ['\n']) := by
  induction files with
  | nil => exact absurd rfl h
  | cons pc rest ih =>
    obtain ⟨p, c⟩ := pc
    cases rest with
    | nil => simp [rawList, wireBody, wireTail]
    | cons x xs =>
      rw [show rawList ((p, c) :: x :: xs)
          = '\n' :: (fileMarker ++ (p.data ++ (sepNlData ++ (c.data ++
              ('\n' :: rawList (x :: xs)))))) from rfl]
      rw [ih (by simp)]
      show _ = '\n' :: (wireBody ((p, c) :: x :: xs) ++ ['\n'])
      rw [show wireBody ((p, c) :: x :: xs)
          = fileMarker ++ (p.data ++ (sepNlData ++ (c.data ++ wireTail (x :: xs)))) from rfl]
      rw [wireTail_eq_cons]
      simp [List.append_assoc]

theorem rdrop_append_right {X c : List Char} (h : List.rdropWhile pyIsSpace c = c)
    (hne : c ≠ []) : List.rdropWhile pyIsSpace (X ++ c) = X ++ c := by
  have h1 : List.dropWhile pyIsSpace c.reverse = c.reverse := by
    have := congrArg List.reverse h
    simpa [List.rdropWhile] using this
  rw [List.rdropWhile, List.reverse_append, List.dropWhile_append, h1]
  rw [show c.reverse.isEmpty = false by simp [hne]]
  simp

theorem drop_marker_append (R : List Char) :
    List.dropWhile pyIsSpace (fileMarker ++ R) = fileMarker ++ R := by
  rw [List.dropWhile_append]
  rw [show List.dropWhile pyIsSpace fileMarker = fileMarker by rfl]
  rw [show fileMarker.isEmpty = false by rfl]
  simp

theorem wireBody_ends (files : List (String × String)) (hne : files ≠ [])
    (hg : ∀ pc ∈ files, GoodEntry pc) :
    ∃ X cl, wireBody files = X ++ cl ∧ List.rdropWhile pyIsSpace cl = cl ∧ cl ≠ [] := by
  induction files with
  | nil => exact absurd rfl hne
  | cons pc rest ih =>
    obtain ⟨p, c⟩ := pc
    have hgc : GoodEntry (p, c) := hg (p, c) (by simp)
    have hcl : List.rdropWhile pyIsSpace c.data = c.data :=
      (stripList_parts (pyStrip_fix_data hgc.2.2.2.2.1)).2
    have hcne : c.data ≠ [] := string_data_ne_nil hgc.2.2.2.1
    cases rest with
    | nil =>
      refine ⟨fileMarker ++ (p.data ++ sepNlData), c.data, ?_, hcl, hcne⟩
      show fileMarker ++ (p.data ++ (sepNlData ++ (c.data ++ wireTail []))) = _
      simp [wireTail, List.append_assoc]
    | cons x xs =>
      obtain ⟨X, cl, hX, hrd, hclne⟩ := ih (by simp) (fun e he => hg e (by simp [he]))
      refine ⟨fileMarker ++ (p.data ++ (sepNlData ++ (c.data ++ ('\n' :: ('\n' :: X))))),
        cl, ?_, hrd, hclne⟩
      show fileMarker ++ (p.data ++ (sepNlData ++ (c.data ++ wireTail (x :: xs)))) = _
      rw [wireTail_eq_cons, hX]
      simp [List.append_assoc]

theorem stripList_wireBody (files : List (String × String)) (hne : files ≠ [])
    (hg : ∀ pc ∈ files, GoodEntry pc) :
    stripList (wireBody files) = wireBody files := by
  apply stripList_of_parts
  · cases files with
    | nil => exact absurd rfl hne
    | cons pc rest =>
      obtain ⟨p, c⟩ := pc
      show List.dropWhile pyIsSpace (fileMarker ++ _) = _
      exact drop_marker_append _
  · obtain ⟨X, cl, hX, hrd, hclne⟩ := wireBody_ends files hne hg
    rw [hX]
    exact rdrop_append_right hrd hclne

theorem bundle_encode_data (files : List (String × String)) (hne : files ≠ [])
    (hg : ∀ pc ∈ files, GoodEntry pc) :
    (bundle_encode files).data = wireBody files := by
  unfold bundle_encode
  show stripList ((files.foldl _ ("")).data) = _
  rw [bundle_foldl_data files ("") (fun pc hpc => (hg pc hpc).2.2.2.1)]
  rw [show ("" : String).data = [] from rfl, List.nil_append]
  rw [rawList_shape files hne, stripList_cons_newline]
  exact stripList_append_newline (stripList_wireBody files hne hg)

/-! ### Scanning the wire format -/

theorem splitAtNewline_append {xs : List Char} (r : List Char) (h : '\n' ∉ xs) :
    splitAtNewline (xs ++ '\n' :: r) = some (xs, r) := by
  induction xs with
  | nil => simp [splitAtNewline]
  | cons a as ih =>
    have ha : ¬ a = '\n' := by
      intro hc
      exact h (by simp [hc])
    simp only [List.cons_append, splitAtNewline, if_neg ha]
    simp [ih (fun hc => h (by simp [hc]))]

theorem isPrefixOf_self_append (l t : List Char) : l.isPrefixOf (l ++ t) = true := by
  induction l with
  | nil => simp [List.isPrefixOf]
  | cons a as ih => simp [List.isPrefixOf, ih]

theorem headerAt_wire (p r : List Char) (hp : p ≠ []) (hnl : '\n' ∉ p) :
    headerAt (fileMarker ++ (p ++ (sepNlData ++ r))) = some (p, r) := by
  unfold headerAt
  rw [if_pos (isPrefixOf_self_append fileMarker _)]
  rw [List.drop_left fileMarker _]
  have hshape : p ++ (sepNlData ++ r) = (p ++ headerClose) ++ ('\n' :: r) := by
    show p ++ (sepNlData ++ r) = _
    rw [show sepNlData = headerClose ++ ['\n'] from rfl]
    simp [List.append_assoc]
  rw [hshape]
  rw [splitAtNewline_append r (by
    intro hc
    rcases List.mem_append.mp hc with hc | hc
    · exact hnl hc
    · revert hc
      decide)]
  have hlen : (p ++ headerClose).length = p.length + 4 := by simp [headerClose]
  have hge : 5 ≤ (p ++ headerClose).length := by
    have : 1 ≤ p.length := by
      cases p with
      | nil => exact absurd rfl hp
      | cons _ _ => simp
    omega
  have hsuf : headerClose.isSuffixOf (p ++ headerClose) = true := by
    show headerClose.reverse.isPrefixOf (p ++ headerClose).reverse = true
    rw [List.reverse_append]
    exact isPrefixOf_self_append _ _
  show (if 5 ≤ (p ++ headerClose).length ∧ headerClose.isSuffixOf (p ++ headerClose) = true
      then some (List.take ((p ++ headerClose).length - 4) (p ++ headerClose), r)
      else none) = some (p, r)
  rw [if_pos ⟨hge, hsuf⟩]
  rw [show (p ++ headerClose).length - 4 = p.length by omega]
  rw [List.take_left p headerClose]

theorem takeContent_extend {cs : List Char} {tail : List Char}
    (h : ∀ s, s <:+ cs → s ≠ [] →
      contentStop.isPrefixOf (s ++ tail) = false ∧ s ++ tail ≠ ['\n']) :
    takeContent (cs ++ tail) = (cs ++ (takeContent tail).1, (takeContent tail).2) := by
  induction cs with
  | nil => simp
  | cons c cs ih =>
    have hself := h (c :: cs) List.suffix_rfl (by simp)
    show takeContent (c :: (cs ++ tail)) = _
    rw [show takeContent (c :: (cs ++ tail))
        = (if contentStop.isPrefixOf (c :: (cs ++ tail)) = true then ([], c :: (cs ++ tail))
          else if c = '\n' ∧ (cs ++ tail) = [] then ([], c :: (cs ++ tail))
          else (c :: (takeContent (cs ++ tail)).1, (takeContent (cs ++ tail)).2)) from rfl]
    rw [if_neg (by
      rw [show c :: (cs ++ tail) = (c :: cs) ++ tail from rfl, hself.1]
      simp)]
    rw [if_neg (by
      rintro ⟨hc, hcs⟩
      apply hself.2
      rcases List.append_eq_nil.mp hcs with ⟨rfl, rfl⟩
      simp [hc])]
    rw [ih (fun s hs hsne => h s (hs.trans (List.suffix_cons c cs)) hsne)]
    simp

theorem isPrefixOf_length_le {p l : List Char} (h : p.isPrefixOf l = true) :
    p.length ≤ l.length :=
  List.IsPrefix.length_le (List.isPrefixOf_iff_prefix.mp h)

/-- Index table of the stop literal: no interior character is a
newline. -/
theorem contentStop_inner_no_newline :
    ∀ i, i < 10 → 1 ≤ i → contentStop[i]? ≠ some '\n' := by decide

/-- An occurrence of the stop literal cannot use the single trailing
newline appended after a content block: its last character is a colon. -/
theorem contentStop_infix_newline {c : List Char} (h : contentStop <:+: c ++ ['\n']) :
    contentStop <:+: c := by
  obtain ⟨s, t, hst⟩ := h
  rcases List.eq_nil_or_concat t with rfl | ⟨t2, x, ht⟩
  · exfalso
    rw [List.append_nil] at hst
    have h1 : (s ++ contentStop).getLast? = some ':' := by
      rw [List.getLast?_append_of_ne_nil s (by decide)]
      decide
    rw [hst] at h1
    simp at h1
  · rw [ht, List.concat_eq_append] at hst
    have hst2 : (s ++ contentStop ++ t2) ++ [x] = c ++ ['\n'] := by
      rw [← hst]
      simp [List.append_assoc]
    obtain ⟨h1, _⟩ := List.append_inj' hst2 (by simp)
    exact ⟨s, t2, h1⟩

/-- No nonempty suffix of a clean content region can start the stop
literal, whatever well-formed tail follows: the region does not contain
the literal, and a cross-boundary occurrence would need a newline at an
interior position of the literal. -/
theorem no_stop_in_region {R : List Char} {tail : List Char}
    (hR : ¬ contentStop <:+: R)
    (htail : tail = [] ∨ tail[0]? = some '\n')
    (s : List Char) (hs : s <:+ R) (hsne : s ≠ []) :
    contentStop.isPrefixOf (s ++ tail) = false := by
  by_contra hc
  have hpre : contentStop <+: s ++ tail :=
    List.isPrefixOf_iff_prefix.mp (Bool.not_eq_false _ |>.mp hc)
  have htake : contentStop = (s ++ tail).take contentStop.length :=
    List.prefix_iff_eq_take.mp hpre
  rcases Nat.lt_or_ge s.length contentStop.length with hlt | hge
  · have hsl : 1 ≤ s.length := by
      cases s with
      | nil => exact absurd rfl hsne
      | cons _ _ => simp
    have hidx : contentStop[s.length]? = ((s ++ tail).take contentStop.length)[s.length]? := by
      rw [← htake]
    rw [List.getElem?_take, if_pos hlt, List.getElem?_append_right (Nat.le_refl _),
      Nat.sub_self] at hidx
    rcases htail with rfl | h0
    · have := List.getElem?_eq_none_iff.mp (by simpa using hidx)
      omega
    · rw [h0] at hidx
      exact contentStop_inner_no_newline s.length (by simpa using hlt) hsl hidx
  · apply hR
    rw [List.take_append_of_le_length hge] at htake
    have hps : contentStop <+: s := by
      rw [htake]
      exact List.take_prefix _ _
    exact List.infix_iff_prefix_suffix.mpr ⟨s, hps, hs⟩

theorem no_newline_suffix {c : List Char} (hrd : List.rdropWhile pyIsSpace c = c) :
    ¬ (['\n'] <:+ c) := by
  rintro ⟨X, hX⟩
  rw [← hX, List.rdropWhile_concat_pos _ _ '\n' (by rfl)] at hrd
  have h1 := List.IsPrefix.length_le (List.rdropWhile_prefix pyIsSpace X)
  have h2 := congrArg List.length hrd
  simp at h2
  omega

theorem takeContent_last {c : List Char} (hinf : ¬ contentStop <:+: c)
    (hrd : List.rdropWhile pyIsSpace c = c) : takeContent c = (c, []) := by
  have h := @takeContent_extend c [] (fun s hs hsne =>
    ⟨no_stop_in_region hinf (Or.inl rfl) s hs hsne, by
      rw [List.append_nil]
      rintro rfl
      exact no_newline_suffix hrd hs⟩)
  rw [show takeContent ([] : List Char) = ([], []) from rfl] at h
  simpa using h

theorem marker_split : fileMarker = ("=== FILE:").data ++ [' '] := by decide

theorem stop_prefix_next (Z : List Char) :
    contentStop.isPrefixOf ('\n' :: (fileMarker ++ Z)) = true := by
  have hshape : '\n' :: (fileMarker ++ Z) = contentStop ++ (' ' :: Z) := by
    rw [marker_split]
    show '\n' :: (("=== FILE:").data ++ ([' '] ++ Z)) = _
    rw [show contentStop = '\n' :: ("=== FILE:").data from rfl]
    simp
  rw [hshape]
  exact isPrefixOf_self_append _ _

theorem takeContent_next (Z : List Char) :
    takeContent ('\n' :: (fileMarker ++ Z)) = ([], '\n' :: (fileMarker ++ Z)) := by
  rw [show takeContent ('\n' :: (fileMarker ++ Z))
      = (if contentStop.isPrefixOf ('\n' :: (fileMarker ++ Z)) = true
          then (([] : List Char), '\n' :: (fileMarker ++ Z))
          else if '\n' = '\n' ∧ (fileMarker ++ Z) = [] then ([], '\n' :: (fileMarker ++ Z))
          else ('\n' :: (takeContent (fileMarker ++ Z)).1, (takeContent (fileMarker ++ Z)).2))
      from rfl]
  rw [if_pos (stop_prefix_next Z)]

theorem takeContent_mid {c : List Char} (Z : List Char) (hinf : ¬ contentStop <:+: c) :
    takeContent ((c ++ ['\n']) ++ ('\n' :: (fileMarker ++ Z)))
      = (c ++ ['\n'], '\n' :: (fileMarker ++ Z)) := by
  have h := @takeContent_extend (c ++ ['\n']) ('\n' :: (fileMarker ++ Z))
    (fun s hs hsne =>
      ⟨no_stop_in_region (fun hc => hinf (contentStop_infix_newline hc)) (Or.inr rfl) s hs hsne,
       by
        intro heq
        have hlen := congrArg List.length heq
        simp [List.length_append] at hlen
        have hm : fileMarker.length = 10 := rfl
        omega⟩)
  rw [h, takeContent_next]
  simp

theorem scanBlocksFuel_nil (f : Nat) : scanBlocksFuel f [] = [] := by
  cases f <;> rfl

theorem headerAt_not_marker {x : Char} {l : List Char} (h : ¬ x = '=') :
    headerAt (x :: l) = none := by
  have hm : fileMarker.isPrefixOf (x :: l) = false := by
    have hbe : (('=' : Char) == x) = false := by
      simp only [beq_eq_false_iff_ne, ne_eq]
      exact fun hc => h hc.symm
    rw [show fileMarker = '=' :: (("== FILE: ").data) from rfl]
    simp [List.isPrefixOf, hbe]
  unfold headerAt
  rw [hm]
  simp

theorem scanBlocksFuel_cons (f : Nat) (c : Char) (cs : List Char) :
    scanBlocksFuel (f + 1) (c :: cs)
      = match headerAt (c :: cs) with
        | some pr => (pr.1, (takeContent pr.2).1) :: scanBlocksFuel f (takeContent pr.2).2
        | none => scanBlocksFuel f cs := rfl

/-- The regex matches an encoded bundle produces: one block per file;
every content group except the last carries the trailing newline that
`str.strip` later removes. -/
def blocksOf : List (String × String) → List (List Char × List Char)
  | [] => []
  | [(p, c)] => [(p.data, c.data)]
  | (p, c) :: rest => (p.data, c.data ++ ['\n']) :: blocksOf rest

theorem scan_wire (files : List (String × String)) : ∀ (fuel : Nat),
    (∀ pc ∈ files, GoodEntry pc) → (wireBody files).length ≤ fuel →
    scanBlocksFuel fuel (wireBody files) = blocksOf files := by
  induction files with
  | nil =>
    intro fuel _ _
    show scanBlocksFuel fuel [] = []
    exact scanBlocksFuel_nil fuel
  | cons pc rest ih =>
    obtain ⟨p, c⟩ := pc
    intro fuel hg hfuel
    have hgp : GoodEntry (p, c) := hg _ (by simp)
    have hp : p.data ≠ [] := string_data_ne_nil hgp.1
    have hnl : '\n' ∉ p.data := hgp.2.2.1
    have hinf : ¬ contentStop <:+: c.data := hgp.2.2.2.2.2
    have hrd : List.rdropWhile pyIsSpace c.data = c.data :=
      (stripList_parts (pyStrip_fix_data hgp.2.2.2.2.1)).2
    have hW : wireBody ((p, c) :: rest)
        = fileMarker ++ (p.data ++ (sepNlData ++ (c.data ++ wireTail rest))) := rfl
    have hm10 : fileMarker.length = 10 := rfl
    have hsep5 : sepNlData.length = 5 := rfl
    have hlenW : (wireBody ((p, c) :: rest)).length
        = 15 + p.data.length + c.data.length + (wireTail rest).length := by
      rw [hW]
      simp [List.length_append, hm10, hsep5]
      omega
    cases fuel with
    | zero =>
      exfalso
      rw [hlenW] at hfuel
      omega
    | succ f =>
      rw [hW]
      rw [show fileMarker ++ (p.data ++ (sepNlData ++ (c.data ++ wireTail rest)))
          = '=' :: ((("== FILE: ").data) ++ (p.data ++ (sepNlData ++ (c.data ++ wireTail rest))))
          from rfl]
      rw [scanBlocksFuel_cons]
      rw [show ('=' :: ((("== FILE: ").data) ++ (p.data ++ (sepNlData ++ (c.data ++ wireTail rest)))))
          = fileMarker ++ (p.data ++ (sepNlData ++ (c.data ++ wireTail rest))) from rfl]
      rw [headerAt_wire p.data (c.data ++ wireTail rest) hp hnl]
      show (p.data, (takeContent (c.data ++ wireTail rest)).1)
          :: scanBlocksFuel f (takeContent (c.data ++ wireTail rest)).2 = _
      cases rest with
      | nil =>
        rw [show wireTail ([] : List (String × String)) = [] from rfl, List.append_nil]
        rw [takeContent_last hinf hrd]
        show (p.data, c.data) :: scanBlocksFuel f [] = blocksOf [(p, c)]
        rw [scanBlocksFuel_nil]
        rfl
      | cons x xs =>
        obtain ⟨q, d⟩ := x
        rw [wireTail_eq_cons]
        have hWx : wireBody ((q, d) :: xs)
            = fileMarker ++ (q.data ++ (sepNlData ++ (d.data ++ wireTail xs))) := rfl
        rw [show c.data ++ ('\n' :: ('\n' :: wireBody ((q, d) :: xs)))
            = (c.data ++ ['\n']) ++ ('\n' :: wireBody ((q, d) :: xs)) by simp]
        rw [show ('\n' :: wireBody ((q, d) :: xs))
            = ('\n' :: (fileMarker ++ (q.data ++ (sepNlData ++ (d.data ++ wireTail xs))))) from rfl]
        rw [takeContent_mid _ hinf]
        show (p.data, c.data ++ ['\n']) :: scanBlocksFuel f
            ('\n' :: (fileMarker ++ (q.data ++ (sepNlData ++ (d.data ++ wireTail xs))))) = _
        have hfb : (wireBody ((q, d) :: xs)).length + 1 ≤ f := by
          rw [hlenW] at hfuel
          have h1 : (wireTail ((q, d) :: xs)).length = 2 + (wireBody ((q, d) :: xs)).length := by
            rw [wireTail_eq_cons]
            simp
            omega
          omega
        cases f with
        | zero => exact absurd hfb (by omega)
        | succ f2 =>
          rw [scanBlocksFuel_cons]
          rw [headerAt_not_marker (by decide)]
          show (p.data, c.data ++ ['\n']) :: scanBlocksFuel f2
              (fileMarker ++ (q.data ++ (sepNlData ++ (d.data ++ wireTail xs)))) = _
          rw [← hWx]
          rw [ih f2 (fun e he => hg e (by simp [he])) (by omega)]
          show blocksOf ((p, c) :: (q, d) :: xs) = _
          rfl

theorem string_mk_data (s : String) : String.mk s.data = s := by
  cases s
  rfl

theorem pyStrip_mk_append_newline {c : String} (h : pyStrip c = c) :
    pyStrip (String.mk (c.data ++ ['\n'])) = c := by
  unfold pyStrip
  show String.mk (stripList (c.data ++ ['\n'])) = c
  rw [stripList_append_newline (pyStrip_fix_data h), string_mk_data]

theorem clean_blocksOf (files : List (String × String)) (hg : ∀ pc ∈ files, GoodEntry pc) :
    ((blocksOf files).map
        (fun pr => (pyStrip (String.mk pr.1), pyStrip (String.mk pr.2)))).filter
      (fun pc => pc.1 != "" && pc.2 != "") = files := by
  induction files with
  | nil => rfl
  | cons pc rest ih =>
    obtain ⟨p, c⟩ := pc
    have hgp : GoodEntry (p, c) := hg _ (by simp)
    have hps : pyStrip (String.mk p.data) = p := by rw [string_mk_data]; exact hgp.2.1
    have hcs : pyStrip (String.mk c.data) = c := by rw [string_mk_data]; exact hgp.2.2.2.2.1
    have hkeep : ((p != "") && (c != "")) = true := by
      simp [bne_iff_ne]
      exact ⟨hgp.1, hgp.2.2.2.1⟩
    cases rest with
    | nil =>
      show ([(pyStrip (String.mk p.data), pyStrip (String.mk c.data))]).filter _ = _
      rw [hps, hcs]
      simp [List.filter_cons, hkeep]
    | cons x xs =>
      show ((pyStrip (String.mk p.data), pyStrip (String.mk (c.data ++ ['\n'])))
          :: (blocksOf (x :: xs)).map _).filter _ = _
      rw [hps, pyStrip_mk_append_newline hgp.2.2.2.2.1]
      rw [List.filter_cons, if_pos hkeep]
      rw [ih (fun e he => hg e (by simp [he]))]

theorem buildDict_eq_self_aux (files : List (String × String)) :
    ∀ m : List (String × String), ((m ++ files).map Prod.fst).Nodup →
      files.foldl (fun m pc => dictInsert m pc.1 pc.2) m = m ++ files := by
  induction files with
  | nil => intro m _; simp
  | cons pc rest ih =>
    obtain ⟨k, v⟩ := pc
    intro m hnd
    have hdisj : List.Disjoint (m.map Prod.fst) (((k, v) :: rest).map Prod.fst) := by
      apply List.disjoint_of_nodup_append
      rw [← List.map_append]
      exact hnd
    have hknotin : k ∉ m.map Prod.fst := fun hk => hdisj hk (by simp)
    have hany : m.any (fun p => p.1 = k) = false := by
      apply Bool.eq_false_iff.mpr
      intro hc
      simp only [List.any_eq_true, decide_eq_true_eq] at hc
      obtain ⟨e, he, hek⟩ := hc
      exact hknotin (List.mem_map.mpr ⟨e, he, hek⟩)
    have hins : dictInsert m k v = m ++ [(k, v)] := by
      unfold dictInsert
      rw [if_neg (by simp [hany])]
    simp only [List.foldl_cons, hins]
    rw [ih (m ++ [(k, v)]) (by
      rw [List.append_assoc]
      simpa using hnd)]
    simp

theorem buildDict_eq_self (files : List (String × String))
    (hnd : (files.map Prod.fst).Nodup) : buildDict files = files := by
  unfold buildDict
  simpa using buildDict_eq_self_aux files [] (by simpa using hnd)

/-- C5 amended.  Round trip of the wire format: for every patch set with
pairwise-distinct paths in which every path is non-empty, strip-invariant
and newline-free, and every content is non-empty, strip-invariant and
does not contain the parser's stop literal `"\n=== FILE:"`, encoding
with the bundler's block format and decoding with `parse_file_changes`
returns exactly the original patch set.  (The original claim's
condition — content merely avoiding the separator `"=== FILE: "` and
only the *trimmed* path/content being non-empty — is too weak; see the
counterexample.) -/
theorem bundle_roundtrip (files : List (String × String))
    (hnd : (files.map Prod.fst).Nodup) (hg : ∀ pc ∈ files, GoodEntry pc) :
    parse_file_changes (bundle_encode files) = files := by
  cases files with
  | nil => rfl
  | cons pc rest =>
    unfold parse_file_changes
    rw [show (bundle_encode (pc :: rest)).data = wireBody (pc :: rest) from
      bundle_encode_data _ (by simp) hg]
    unfold scanBlocks
    rw [scan_wire _ _ hg (Nat.le_refl _)]
    rw [parse_eq_buildDict_fold]
    rw [clean_blocksOf _ hg]
    exact buildDict_eq_self _ hnd

/-- Witness for C5 (amended) at the specification's own example patch
set. -/
theorem bundle_roundtrip_witness :
    parse_file_changes (bundle_encode [(("a.txt"), ("hello")), (("dir/b.txt"), ("world"))])
      = [(("a.txt"), ("hello")), (("dir/b.txt"), ("world"))] :=
  bundle_roundtrip [(("a.txt"), ("hello")), (("dir/b.txt"), ("world"))]
    (by decide) (by decide)

/-- C5 counterexample.  The claim as stated is false: the patch set
`{"a.txt": "hello "}` satisfies its conditions — the trimmed path and
trimmed content are non-empty and the content does not contain the
separator literal `"=== FILE: "` — yet encoding and decoding yields
`{"a.txt": "hello"}`: the parser's `.strip()` discards the content's
trailing whitespace, so the round trip is not the identity. -/
theorem bundle_roundtrip_counterexample :
    (pyStrip ("a.txt") ≠ "" ∧ pyStrip ("hello ") ≠ ""
      ∧ ¬ fileMarker <:+: ("hello ").data)
    ∧ parse_file_changes (bundle_encode [(("a.txt"), ("hello "))])
        = [(("a.txt"), ("hello"))]
    ∧ parse_file_changes (bundle_encode [(("a.txt"), ("hello "))])
        ≠ [(("a.txt"), ("hello "))] := by
  refine ⟨⟨?_, ?_, ?_⟩, ?_, ?_⟩ <;> decide
